import Mathlib

/-
Verification development for the Weaviate + Box ingestion recipe
(src/weaviate_box.ipynb).  The embedding models the four core functions of
the notebook over `List Char` texts:

  * `clean_up_text`  — the regex clean-up pipeline (TextNormalizer),
  * `get_file_text_content` — the representation fetch with retry loop
    (RepresentationFetcher),
  * `chunk_text`     — the fixed-window chunker with overlap (Chunker),
  * `extract_text_and_generate_embeddings` — the per-document pipeline
    (IngestionPipeline).

Python's regexes are modelled by explicit left-to-right scanners with the
same leftmost, non-overlapping `re.sub` semantics; the character classes
`\w`, `\s`, and the hex class are modelled on ASCII.  Python integers are
modelled by `Int` where the source can go negative (the chunker's window
arithmetic and slice indices); slicing follows Python's clamping rules.
Loops that need not terminate (the chunker's `while` when the window start
does not advance) are modelled with explicit fuel returning `Option`:
`none` means the loop has not finished within the given fuel, and
divergence is `none` for every fuel.
-/

set_option maxHeartbeats 2000000

namespace WeaviateBox

/-- ASCII model of the regex class `\w` (word character). -/
def isW (c : Char) : Bool :=
  ('a' ≤ c && c ≤ 'z') || ('A' ≤ c && c ≤ 'Z') || ('0' ≤ c && c ≤ '9') || c == '_'

/-- ASCII model of the regex class `\s` (whitespace). -/
def isSp (c : Char) : Bool :=
  c == ' ' || c == '\t' || c == '\n' || c == '\r' || c == '\x0b' || c == '\x0c'

/-- Model of the hex-digit class `[\dA-Fa-f]`. -/
def isHex (c : Char) : Bool :=
  ('0' ≤ c && c ≤ '9') || ('a' ≤ c && c ≤ 'f') || ('A' ≤ c && c ≤ 'F')

/-- `re.sub(r'(\w+)-\n(\w+)', r'\1\2', l)`: rejoin a hyphen-linebreak-split
word.  Fuel-indexed scanner; fuel `l.length` always suffices (each step
recurses on a strictly shorter list). -/
def rejoinF : Nat → List Char → List Char
  | 0, l => l
  | _ + 1, [] => []
  | f + 1, c :: rest =>
    if isW c then
      match (c :: rest).dropWhile isW with
      | d1 :: d2 :: d :: tail =>
        if d1 = '-' ∧ d2 = '\n' ∧ isW d then
          (c :: rest).takeWhile isW ++ (d :: tail).takeWhile isW
            ++ rejoinF f ((d :: tail).dropWhile isW)
        else c :: rejoinF f rest
      | _ => c :: rejoinF f rest
    else c :: rejoinF f rest

/-- `re.sub(pat, "", l)` for a literal pattern `pat`: remove every leftmost
non-overlapping occurrence in one pass. -/
def removeAllF (pat : List Char) : Nat → List Char → List Char
  | 0, l => l
  | _ + 1, [] => []
  | f + 1, c :: rest =>
    if pat.isPrefixOf (c :: rest) then removeAllF pat f ((c :: rest).drop pat.length)
    else c :: removeAllF pat f rest

/-- `re.sub(r'\\u[\dA-Fa-f]{4}', "", l)`: remove literal backslash-u escape
sequences. -/
def removeEscUF : Nat → List Char → List Char
  | 0, l => l
  | _ + 1, [] => []
  | f + 1, c :: rest =>
    if c = '\\' then
      match rest with
      | u :: h1 :: h2 :: h3 :: h4 :: tail =>
        if u = 'u' ∧ isHex h1 ∧ isHex h2 ∧ isHex h3 ∧ isHex h4 then removeEscUF f tail
        else c :: removeEscUF f rest
      | _ => c :: removeEscUF f rest
    else c :: removeEscUF f rest

/-- `re.sub(r'(\w)\s*-\s*(\w)', r'\1-\2', l)`: tighten a word-hyphen-word
pattern, dropping the surrounding whitespace. -/
def tightenF : Nat → List Char → List Char
  | 0, l => l
  | _ + 1, [] => []
  | f + 1, c :: rest =>
    if isW c then
      match rest.dropWhile isSp with
      | d1 :: r2 =>
        if d1 = '-' then
          match r2.dropWhile isSp with
          | d :: tail =>
            if isW d then c :: '-' :: d :: tightenF f tail
            else c :: tightenF f rest
          | [] => c :: tightenF f rest
        else c :: tightenF f rest
      | [] => c :: tightenF f rest
    else c :: tightenF f rest

/-- `re.sub(r'\s+', ' ', l)`: collapse each maximal whitespace run into a
single ASCII space. -/
def collapseWsF : Nat → List Char → List Char
  | 0, l => l
  | _ + 1, [] => []
  | f + 1, c :: rest =>
    if isSp c then ' ' :: collapseWsF f (rest.dropWhile isSp)
    else c :: collapseWsF f rest

def rejoin (l : List Char) : List Char := rejoinF l.length l

def reSubAll (pat l : List Char) : List Char := removeAllF pat l.length l

def removeEscU (l : List Char) : List Char := removeEscUF l.length l

def tighten (l : List Char) : List Char := tightenF l.length l

def collapseWs (l : List Char) : List Char := collapseWsF l.length l

/-- The em-dash character used by the unwanted-pattern list. -/
def emDash : Char := '\u2014'

/-- `clean_up_text` from the notebook: hyphen-line-break rejoin, the
unwanted-pattern removals (`"\\n"` is the regex for a newline character;
then `"  —"`, runs of 10, 9 and 5 em-dashes, escaped `\uXXXX` sequences,
and the private-use bullet glyphs U+F075 and U+F0B7), the word-hyphen-word
tightening, and finally whitespace collapsing. -/
def clean_up_text (content : List Char) : List Char :=
  collapseWs (tighten (reSubAll ['\uf0b7'] (reSubAll ['\uf075'] (removeEscU
    (reSubAll (List.replicate 5 emDash) (reSubAll (List.replicate 9 emDash)
      (reSubAll (List.replicate 10 emDash) (reSubAll [' ', ' ', emDash]
        (reSubAll ['\n'] (rejoin content))))))))))

/-- Fully collapsed whitespace: every whitespace character is an ASCII
space and no two adjacent characters are both whitespace.  This is the
shape of `collapseWs` output. -/
def normedWs : List Char → Bool
  | [] => true
  | [c] => !isSp c || c == ' '
  | c :: d :: rest => (!isSp c || c == ' ') && !(isSp c && isSp d) && normedWs (d :: rest)

/-- Adjust one slice bound the way Python does for `s[i:j]`. -/
def pyIndex (n : Nat) (i : Int) : Nat :=
  if i < 0 then (max (i + n) 0).toNat else min i.toNat n

/-- Python slice `l[i:j]` (with clamping and negative-index wrapping). -/
def pySlice (l : List Char) (i j : Int) : List Char :=
  (l.drop (pyIndex l.length i)).take (pyIndex l.length j - pyIndex l.length i)

/-- The `while start < len(text)` loop of `chunk_text`, fuel-indexed.
Each iteration appends `text[start:start+cs]` and sets
`start := (start + cs) - ov` (Python integer arithmetic, hence `Int`).
`none` means the loop did not finish within the fuel. -/
def chunkAuxF (text : List Char) (cs ov : Int) : Nat → Int → Option (List (List Char))
  | 0, _ => none
  | f + 1, start =>
    if start < (text.length : Int) then
      (chunkAuxF text cs ov f (start + cs - ov)).map
        (fun r => pySlice text start (start + cs) :: r)
    else some []

/-- `chunk_text(text, chunk_size, overlap)` (notebook defaults 4000/200),
run with fuel `text.length + 1`, which suffices whenever the window start
advances by at least one character per iteration. -/
def chunk_text (text : List Char) (cs ov : Int) : Option (List (List Char)) :=
  chunkAuxF text cs ov (text.length + 1) 0

/-- Modelled from the spec's words (§4.3, claim C3), for comparison with
`chunk_text`: window `i` covers `[start_i, start_i + cs)` with
`start_0 = 0` and `start_{i+1} = start_i + (cs - ov)`, stopping once
`start_i ≥ length text`, the final window truncated to the text's end. -/
def specWindowsF (text : List Char) (cs ov : Nat) : Nat → Nat → List (List Char)
  | 0, _ => []
  | f + 1, start =>
    if start < text.length then
      (text.drop start).take cs :: specWindowsF text cs ov f (start + (cs - ov))
    else []

/-- The spec-side window sequence starting at 0. -/
def specWindows (text : List Char) (cs ov : Nat) : List (List Char) :=
  specWindowsF text cs ov (text.length + 1) 0

/-- Sum of the lengths of the emitted chunks. -/
def sumLens (r : List (List Char)) : Nat := (r.map List.length).sum

/-- The last character of the final chunk, when both exist. -/
def lastCharOfChunks (r : List (List Char)) : Option Char :=
  r.getLast?.bind List.getLast?

/-- The chunking loop never finishes, for any amount of fuel. -/
def chunkDiverges (text : List Char) (cs ov : Int) : Prop :=
  ∀ f : Nat, chunkAuxF text cs ov f 0 = none

/-- One entry of `file.representations.entries` as the fetcher sees it:
its representation kind (`rep.representation`), its readiness state
(`rep.status.state`, present in the data but never read by the code), and
the text obtained by downloading its content URL (transport assumed
successful). -/
structure RepEntry where
  representation : String
  state : String
  text : List Char
deriving DecidableEq

/-- Result of `get_file_text_content`: the returned text, one of the two
`ValueError`s, or Python's implicit `None` return (reachable only with
`max_retries = 0`). -/
inductive FetchOutcome where
  | success (text : List Char)
  | notReadyError (fileId : String)
  | unavailable (fileName : String) (attempts : Nat)
  | returnedNone
deriving DecidableEq

/-- The `for attempt in range(max_retries)` loop of `get_file_text_content`.
`source a` models the representation entries the metadata lookup of attempt
`a` observes; `k` is the number of iterations left (the current attempt is
`maxRetries - k`); `count` accumulates the number of metadata lookups
performed.  A non-empty entries list inspects only its first entry (the
inner `for` either returns or raises on it): kind `extracted_text` means
download and return the cleaned text, any other kind raises the not-ready
`ValueError`; an empty list falls through to the final-attempt check and
otherwise retries. -/
def fetchGo (source : Nat → List RepEntry) (fid fname : String) (maxRetries : Nat) :
    Nat → Nat → FetchOutcome × Nat
  | 0, count => (.returnedNone, count)
  | k + 1, count =>
    match source (maxRetries - (k + 1)) with
    | [] =>
      if maxRetries - (k + 1) = maxRetries - 1 then (.unavailable fname maxRetries, count + 1)
      else fetchGo source fid fname maxRetries k (count + 1)
    | rep :: _ =>
      if rep.representation = "extracted_text" then (.success (clean_up_text rep.text), count + 1)
      else (.notReadyError fid, count + 1)

/-- `get_file_text_content(file, max_retries, delay)`.  The `delay`
parameter is accepted (default 5) but the body contains no sleep, so it is
never used. -/
def get_file_text_content (source : Nat → List RepEntry) (fid fname : String)
    (maxRetries delay : Nat) : FetchOutcome :=
  (fetchGo source fid fname maxRetries maxRetries 0).1

/-- Number of metadata lookups (attempts) `get_file_text_content` performs. -/
def fetchCount (source : Nat → List RepEntry) (fid fname : String) (maxRetries : Nat) : Nat :=
  (fetchGo source fid fname maxRetries maxRetries 0).2

/-- One Box file as the pipeline sees it: identity, display name, creation
date, and the representation entries its metadata lookups report on each
attempt (the collaborator's behaviour, attached to the document). -/
structure BoxFile where
  id : String
  name : String
  created_at : String
  source : Nat → List RepEntry

/-- One yielded chunk record. -/
structure ChunkRecord where
  file_id : String
  file_name : String
  chunk_index : Nat
  content : List Char
  created_date : String
deriving DecidableEq

/-- One logged per-document failure (`print(f"Error processing {name}: {e}")`). -/
structure LogEntry where
  file_name : String
  error : FetchOutcome
deriving DecidableEq

/-- The records yielded for one file whose fetch returned `text`:
`chunk_text(text, 4000, 200)` enumerated with 0-based indices.  The
chunking always terminates here (200 < 4000, see `chunk_text_total`), so
the `getD []` default is never taken. -/
def recordsOf (f : BoxFile) (text : List Char) : List ChunkRecord :=
  ((chunk_text text 4000 200).getD []).enum.map fun p =>
    ⟨f.id, f.name, p.1, p.2, f.created_at⟩

/-- The fetch the pipeline performs for one file (defaults `5, 5`). -/
def fetchOf (f : BoxFile) : FetchOutcome :=
  get_file_text_content f.source f.id f.name 5 5

/-- Whether a fetch outcome is a normal return (everything else is an
exception by the time `chunk_text` is reached: the two `ValueError`s, and
`None` which makes `chunk_text(None, ...)` raise a `TypeError`). -/
def isSuccess : FetchOutcome → Bool
  | .success _ => true
  | _ => false

/-- `extract_text_and_generate_embeddings(files)`: for each file, fetch,
chunk, and yield one record per chunk; any exception is caught, logged
once with the file's name, and the loop proceeds to the next file.
Returns (yielded records, failure log). -/
def extract_text_and_generate_embeddings : List BoxFile → List ChunkRecord × List LogEntry
  | [] => ([], [])
  | f :: rest =>
    let r := extract_text_and_generate_embeddings rest
    match fetchOf f with
    | .success text => (recordsOf f text ++ r.1, r.2)
    | e => (r.1, ⟨f.name, e⟩ :: r.2)

/-- The per-document record contribution (empty for a failed document). -/
def perDocRecords (f : BoxFile) : List ChunkRecord :=
  match fetchOf f with
  | .success text => recordsOf f text
  | _ => []

/-- Input texts on which none of the clean-up patterns' trigger characters
occur: no hyphen-minus, em-dash, backslash, U+F075 or U+F0B7. -/
def cleanSafe (l : List Char) : Bool :=
  l.all fun c => !(c == '-' || c == emDash || c == '\\' || c == '\uf075' || c == '\uf0b7')

/-- A source whose representation list is empty on every attempt. -/
def srcEmpty : Nat → List RepEntry := fun _ => []

/-- A source that is empty for the first four attempts and offers a ready
extracted-text representation on the fifth. -/
def srcLate : Nat → List RepEntry :=
  fun a => if a < 4 then [] else [⟨"extracted_text", "success", ['h', 'i']⟩]

/-- A source that always offers an extracted-text representation whose
readiness state is still "pending". -/
def srcPending : Nat → List RepEntry :=
  fun _ => [⟨"extracted_text", "pending", ['x']⟩]

/-- Concrete pipeline fixtures: documents 1 and 3 fetch successfully,
document 2's fetch always fails. -/
def fileA : BoxFile :=
  ⟨"1", "doc1", "c1", fun _ => [⟨"extracted_text", "success", ['h', 'i']⟩]⟩

def fileB : BoxFile := ⟨"2", "doc2", "c2", srcEmpty⟩

def fileC : BoxFile :=
  ⟨"3", "doc3", "c3", fun _ => [⟨"extracted_text", "success", ['y', 'o']⟩]⟩

/-! ### Helper lemmas about the clean-up scanners -/

theorem mem_of_isPrefixOf {pat l : List Char} (h : pat.isPrefixOf l = true)
    {a : Char} (ha : a ∈ pat) : a ∈ l :=
  (List.isPrefixOf_iff_prefix.mp h).subset ha

theorem removeAllF_id {a : Char} {pat : List Char} (ha : a ∈ pat) :
    ∀ (f : Nat) (l : List Char), a ∉ l → removeAllF pat f l = l := by
  intro f
  induction f with
  | zero => intro l _; rfl
  | succ f ih =>
    intro l hl
    cases l with
    | nil => rfl
    | cons c rest =>
      have hnp : ¬pat.isPrefixOf (c :: rest) = true := fun hp => hl (mem_of_isPrefixOf hp ha)
      have hr : a ∉ rest := fun h => hl (List.mem_cons_of_mem _ h)
      simp only [removeAllF, if_neg hnp, ih rest hr]

theorem rejoinF_id : ∀ (f : Nat) (l : List Char), '-' ∉ l → rejoinF f l = l := by
  intro f
  induction f with
  | zero => intro l _; rfl
  | succ f ih =>
    intro l hl
    cases l with
    | nil => rfl
    | cons c rest =>
      have hr : '-' ∉ rest := fun h => hl (List.mem_cons_of_mem _ h)
      have hrec : c :: rejoinF f rest = c :: rest := by rw [ih rest hr]
      by_cases hw : isW c = true
      · cases hD : (c :: rest).dropWhile isW with
        | nil => simp only [rejoinF, if_pos hw, hD]; exact hrec
        | cons d1 t1 =>
          have hd1 : d1 ∈ c :: rest := by
            have hmem : d1 ∈ (c :: rest).dropWhile isW := by
              rw [hD]; exact List.mem_cons_self _ _
            exact (List.dropWhile_sublist isW).subset hmem
          have hne : ¬d1 = '-' := fun h => hl (by rw [← h]; exact hd1)
          cases t1 with
          | nil => simp only [rejoinF, if_pos hw, hD]; exact hrec
          | cons d2 t2 =>
            cases t2 with
            | nil => simp only [rejoinF, if_pos hw, hD]; exact hrec
            | cons d t =>
              have hcond : ¬(d1 = '-' ∧ d2 = '\n' ∧ isW d = true) := fun h => hne h.1
              simp only [rejoinF, if_pos hw, hD, if_neg hcond]
              exact hrec
      · simp only [rejoinF, if_neg hw]
        exact hrec

theorem removeEscUF_id : ∀ (f : Nat) (l : List Char), '\\' ∉ l → removeEscUF f l = l := by
  intro f
  induction f with
  | zero => intro l _; rfl
  | succ f ih =>
    intro l hl
    cases l with
    | nil => rfl
    | cons c rest =>
      have hr : '\\' ∉ rest := fun h => hl (List.mem_cons_of_mem _ h)
      have hc : ¬c = '\\' := fun h => hl (by rw [← h]; exact List.mem_cons_self _ _)
      simp only [removeEscUF, if_neg hc, ih rest hr]

theorem tightenF_id : ∀ (f : Nat) (l : List Char), '-' ∉ l → tightenF f l = l := by
  intro f
  induction f with
  | zero => intro l _; rfl
  | succ f ih =>
    intro l hl
    cases l with
    | nil => rfl
    | cons c rest =>
      have hr : '-' ∉ rest := fun h => hl (List.mem_cons_of_mem _ h)
      have hrec : c :: tightenF f rest = c :: rest := by rw [ih rest hr]
      by_cases hw : isW c = true
      · cases hD : rest.dropWhile isSp with
        | nil => simp only [tightenF, if_pos hw, hD]; exact hrec
        | cons d1 r2 =>
          have hd1 : d1 ∈ rest := by
            have hmem : d1 ∈ rest.dropWhile isSp := by
              rw [hD]; exact List.mem_cons_self _ _
            exact (List.dropWhile_sublist isSp).subset hmem
          have hne : ¬d1 = '-' := fun h => hr (by rw [← h]; exact hd1)
          simp only [tightenF, if_pos hw, hD, if_neg hne]
          exact hrec
      · simp only [tightenF, if_neg hw]
        exact hrec

theorem removeAllF_subset (pat : List Char) :
    ∀ (f : Nat) (l : List Char) (a : Char), a ∈ removeAllF pat f l → a ∈ l := by
  intro f
  induction f with
  | zero => intro l a h; exact h
  | succ f ih =>
    intro l a h
    cases l with
    | nil => exact h
    | cons c rest =>
      by_cases hp : pat.isPrefixOf (c :: rest) = true
      · simp only [removeAllF, if_pos hp] at h
        exact List.drop_subset _ _ (ih _ a h)
      · simp only [removeAllF, if_neg hp] at h
        rcases List.mem_cons.mp h with h1 | h2
        · rw [h1]; exact List.mem_cons_self _ _
        · exact List.mem_cons_of_mem _ (ih rest a h2)

theorem collapseWsF_subset :
    ∀ (f : Nat) (l : List Char) (a : Char), a ∈ collapseWsF f l → a ∈ l ∨ a = ' ' := by
  intro f
  induction f with
  | zero => intro l a h; exact Or.inl h
  | succ f ih =>
    intro l a h
    cases l with
    | nil => exact Or.inl h
    | cons c rest =>
      by_cases hs : isSp c = true
      · simp only [collapseWsF, if_pos hs] at h
        rcases List.mem_cons.mp h with h1 | h2
        · exact Or.inr h1
        · rcases ih _ a h2 with h3 | h3
          · exact Or.inl (List.mem_cons_of_mem _ ((List.dropWhile_sublist isSp).subset h3))
          · exact Or.inr h3
      · simp only [collapseWsF, if_neg hs] at h
        rcases List.mem_cons.mp h with h1 | h2
        · rw [h1]; exact Or.inl (List.mem_cons_self _ _)
        · rcases ih rest a h2 with h3 | h3
          · exact Or.inl (List.mem_cons_of_mem _ h3)
          · exact Or.inr h3

theorem removeAllF_single_complete (a : Char) :
    ∀ (f : Nat) (l : List Char), l.length ≤ f → a ∉ removeAllF [a] f l := by
  intro f
  induction f with
  | zero =>
    intro l hl
    have hnil : l = [] := List.eq_nil_of_length_eq_zero (Nat.le_zero.mp hl)
    rw [hnil]
    intro h
    exact List.not_mem_nil a h
  | succ f ih =>
    intro l hl
    cases l with
    | nil =>
      intro h
      exact List.not_mem_nil a h
    | cons c rest =>
      have hlen : rest.length ≤ f := by
        have := hl
        simp only [List.length_cons] at this
        omega
      by_cases hp : ([a]).isPrefixOf (c :: rest) = true
      · simp only [removeAllF, if_pos hp, List.length_cons]
        simpa using ih rest hlen
      · simp only [removeAllF, if_neg hp]
        intro h
        rcases List.mem_cons.mp h with h1 | h2
        · exact hp (by simp [List.isPrefixOf, h1])
        · exact ih rest hlen h2

/-! ### The whitespace-collapse normal form -/

theorem head_dropWhile_not_sp :
    ∀ (l : List Char) (d : Char), (l.dropWhile isSp).head? = some d → isSp d = false := by
  intro l
  induction l with
  | nil => intro d h; simp [List.dropWhile] at h
  | cons c rest ih =>
    intro d h
    by_cases hs : isSp c = true
    · rw [List.dropWhile_cons_of_pos hs] at h
      exact ih d h
    · rw [List.dropWhile_cons_of_neg hs] at h
      simp only [List.head?_cons, Option.some.injEq] at h
      rw [← h]
      exact Bool.eq_false_iff.mpr hs

theorem collapseWsF_head (f : Nat) (l : List Char)
    (hl : ∀ c, l.head? = some c → isSp c = false) :
    ∀ c, (collapseWsF f l).head? = some c → isSp c = false := by
  cases f with
  | zero => exact hl
  | succ f =>
    cases l with
    | nil => intro c h; simp [collapseWsF] at h
    | cons c0 rest =>
      have h0 : isSp c0 = false := hl c0 rfl
      have hneg : ¬isSp c0 = true := by simp [h0]
      intro c h
      simp only [collapseWsF, if_neg hneg, List.head?_cons, Option.some.injEq] at h
      rw [← h]
      exact h0

theorem normedWs_cons (c : Char) (X : List Char)
    (h1 : isSp c = false ∨ c = ' ')
    (h2 : ∀ d, X.head? = some d → ¬(isSp c = true ∧ isSp d = true))
    (h3 : normedWs X = true) : normedWs (c :: X) = true := by
  cases X with
  | nil =>
    rcases h1 with h | h
    · simp [normedWs, h]
    · simp [normedWs, h]
  | cons d xs =>
    have hd := h2 d rfl
    simp only [normedWs, Bool.and_eq_true, Bool.or_eq_true, Bool.not_eq_true']
    refine ⟨⟨?_, ?_⟩, h3⟩
    · rcases h1 with h | h
      · simp [h]
      · simp [h]
    · by_cases hc : isSp c = true
      · by_cases hdd : isSp d = true
        · exact absurd ⟨hc, hdd⟩ hd
        · simp [Bool.eq_false_iff.mpr hdd]
      · simp [Bool.eq_false_iff.mpr hc]

theorem normedWs_tail {c : Char} {X : List Char} (h : normedWs (c :: X) = true) :
    normedWs X = true := by
  cases X with
  | nil => rfl
  | cons d xs =>
    simp only [normedWs, Bool.and_eq_true] at h
    exact h.2

theorem normedWs_head_space {c : Char} {X : List Char}
    (h : normedWs (c :: X) = true) (hs : isSp c = true) : c = ' ' := by
  cases X with
  | nil =>
    simp only [normedWs, Bool.or_eq_true, Bool.not_eq_true'] at h
    rcases h with h | h
    · rw [hs] at h; exact absurd h (by simp)
    · exact eq_of_beq h
  | cons d xs =>
    simp only [normedWs, Bool.and_eq_true, Bool.or_eq_true, Bool.not_eq_true'] at h
    rcases h.1.1 with h1 | h1
    · rw [hs] at h1; exact absurd h1 (by simp)
    · exact eq_of_beq h1

theorem normedWs_no_adj {c d : Char} {X : List Char}
    (h : normedWs (c :: d :: X) = true) : ¬(isSp c = true ∧ isSp d = true) := by
  simp only [normedWs, Bool.and_eq_true] at h
  intro hcd
  have := h.1.2
  rw [hcd.1, hcd.2] at this
  exact absurd this (by simp)

theorem collapseWsF_normed :
    ∀ (f : Nat) (l : List Char), l.length ≤ f → normedWs (collapseWsF f l) = true := by
  intro f
  induction f with
  | zero =>
    intro l hl
    have hnil : l = [] := List.eq_nil_of_length_eq_zero (Nat.le_zero.mp hl)
    rw [hnil]; rfl
  | succ f ih =>
    intro l hl
    cases l with
    | nil => rfl
    | cons c rest =>
      have hrest : rest.length ≤ f := by
        simp only [List.length_cons] at hl
        omega
      by_cases hs : isSp c = true
      · simp only [collapseWsF, if_pos hs]
        apply normedWs_cons
        · exact Or.inr rfl
        · intro d hd hcontra
          have hd' : isSp d = false :=
            collapseWsF_head f _ (fun e he => head_dropWhile_not_sp rest e he) d hd
          rw [hd'] at hcontra
          exact absurd hcontra.2 (by simp)
        · exact ih _ (le_trans (List.Sublist.length_le (List.dropWhile_sublist isSp)) hrest)
      · simp only [collapseWsF, if_neg hs]
        apply normedWs_cons
        · exact Or.inl (Bool.eq_false_iff.mpr hs)
        · intro d _ hcontra
          exact hs hcontra.1
        · exact ih rest hrest

theorem collapseWsF_id_of_normed :
    ∀ (f : Nat) (l : List Char), normedWs l = true → collapseWsF f l = l := by
  intro f
  induction f with
  | zero => intro l _; rfl
  | succ f ih =>
    intro l hn
    cases l with
    | nil => rfl
    | cons c rest =>
      by_cases hs : isSp c = true
      · have hc : c = ' ' := normedWs_head_space hn hs
        have hdrop : rest.dropWhile isSp = rest := by
          cases rest with
          | nil => rfl
          | cons d xs =>
            have hadj := normedWs_no_adj hn
            have hd : ¬isSp d = true := fun hdd => hadj ⟨hs, hdd⟩
            exact List.dropWhile_cons_of_neg hd
        simp only [collapseWsF, if_pos hs, hdrop, ih rest (normedWs_tail hn), hc]
        split <;> rfl
      · simp only [collapseWsF, if_neg hs, ih rest (normedWs_tail hn)]

theorem collapseWs_idem (l : List Char) : collapseWs (collapseWs l) = collapseWs l :=
  collapseWsF_id_of_normed _ _ (collapseWsF_normed l.length l le_rfl)

/-! ### Reduction of `clean_up_text` on trigger-free inputs -/

theorem cleanSafe_spec {l : List Char} (h : cleanSafe l = true) {a : Char} (ha : a ∈ l) :
    ¬a = '-' ∧ ¬a = emDash ∧ ¬a = '\\' ∧ ¬a = '\uf075' ∧ ¬a = '\uf0b7' := by
  have hx := List.all_eq_true.mp h a ha
  simp only [Bool.not_eq_true', Bool.or_eq_false_iff, beq_eq_false_iff_ne, ne_eq] at hx
  exact ⟨hx.1.1.1.1, hx.1.1.1.2, hx.1.1.2, hx.1.2, hx.2⟩

theorem clean_up_text_of_safe {T : List Char} (h : cleanSafe T = true) :
    clean_up_text T = collapseWs (reSubAll ['\n'] T) := by
  have hdash : '-' ∉ T := fun hm => (cleanSafe_spec h hm).1 rfl
  have hem : emDash ∉ T := fun hm => (cleanSafe_spec h hm).2.1 rfl
  have hbs : '\\' ∉ T := fun hm => (cleanSafe_spec h hm).2.2.1 rfl
  have h75 : '\uf075' ∉ T := fun hm => (cleanSafe_spec h hm).2.2.2.1 rfl
  have hb7 : '\uf0b7' ∉ T := fun hm => (cleanSafe_spec h hm).2.2.2.2 rfl
  have h1 : rejoin T = T := rejoinF_id _ _ hdash
  have hsub : ∀ a : Char, a ∈ reSubAll ['\n'] T → a ∈ T :=
    fun a ha => removeAllF_subset _ _ _ a ha
  have hem2 : emDash ∉ reSubAll ['\n'] T := fun hm => hem (hsub _ hm)
  have hdash2 : '-' ∉ reSubAll ['\n'] T := fun hm => hdash (hsub _ hm)
  have hbs2 : '\\' ∉ reSubAll ['\n'] T := fun hm => hbs (hsub _ hm)
  have h752 : '\uf075' ∉ reSubAll ['\n'] T := fun hm => h75 (hsub _ hm)
  have hb72 : '\uf0b7' ∉ reSubAll ['\n'] T := fun hm => hb7 (hsub _ hm)
  have h3 : reSubAll [' ', ' ', emDash] (reSubAll ['\n'] T) = reSubAll ['\n'] T :=
    removeAllF_id (by simp) _ _ hem2
  have h4 : reSubAll (List.replicate 10 emDash) (reSubAll ['\n'] T) = reSubAll ['\n'] T :=
    removeAllF_id (by simp [List.mem_replicate]) _ _ hem2
  have h5 : reSubAll (List.replicate 9 emDash) (reSubAll ['\n'] T) = reSubAll ['\n'] T :=
    removeAllF_id (by simp [List.mem_replicate]) _ _ hem2
  have h6 : reSubAll (List.replicate 5 emDash) (reSubAll ['\n'] T) = reSubAll ['\n'] T :=
    removeAllF_id (by simp [List.mem_replicate]) _ _ hem2
  have h7 : removeEscU (reSubAll ['\n'] T) = reSubAll ['\n'] T := removeEscUF_id _ _ hbs2
  have h8 : reSubAll ['\uf075'] (reSubAll ['\n'] T) = reSubAll ['\n'] T :=
    removeAllF_id (by simp) _ _ h752
  have h9 : reSubAll ['\uf0b7'] (reSubAll ['\n'] T) = reSubAll ['\n'] T :=
    removeAllF_id (by simp) _ _ hb72
  have h10 : tighten (reSubAll ['\n'] T) = reSubAll ['\n'] T := tightenF_id _ _ hdash2
  simp only [clean_up_text, h1, h3, h4, h5, h6, h7, h8, h9, h10]

theorem cleanSafe_collapse_reSub {T : List Char} (h : cleanSafe T = true) :
    cleanSafe (collapseWs (reSubAll ['\n'] T)) = true := by
  apply List.all_eq_true.mpr
  intro a ha
  rcases collapseWsF_subset _ _ a ha with h1 | h1
  · exact List.all_eq_true.mp h a (removeAllF_subset _ _ _ a h1)
  · rw [h1]; decide

/-- C6: the claim that `clean_up_text` is idempotent is false on the code:
removing the bullet glyph U+F075 can join two short em-dash runs into a
run of five, which only the second application then deletes. -/
theorem claim_C6_counterexample :
    clean_up_text (clean_up_text ['\u2014', '\u2014', '\uf075', '\u2014', '\u2014', '\u2014']) ≠
      clean_up_text ['\u2014', '\u2014', '\uf075', '\u2014', '\u2014', '\u2014'] := by
  decide

/-- C6 (amended): the text normalizer `clean_up_text` is idempotent on
every input that contains none of the removal patterns' trigger characters
(hyphen-minus, em-dash, backslash, U+F075, U+F0B7); on such input a pass
is newline removal followed by whitespace collapsing, and a second pass is
the identity. -/
theorem claim_C6 (T : List Char) (h : cleanSafe T = true) :
    clean_up_text (clean_up_text T) = clean_up_text T := by
  have hred : clean_up_text T = collapseWs (reSubAll ['\n'] T) := clean_up_text_of_safe h
  have hysafe : cleanSafe (collapseWs (reSubAll ['\n'] T)) = true := cleanSafe_collapse_reSub h
  have hrednext : clean_up_text (collapseWs (reSubAll ['\n'] T)) =
      collapseWs (reSubAll ['\n'] (collapseWs (reSubAll ['\n'] T))) :=
    clean_up_text_of_safe hysafe
  have hnl : '\n' ∉ collapseWs (reSubAll ['\n'] T) := by
    intro hm
    rcases collapseWsF_subset _ _ _ hm with hm2 | hm2
    · exact removeAllF_single_complete '\n' _ _ le_rfl hm2
    · exact absurd hm2 (by decide)
  have hn_id : reSubAll ['\n'] (collapseWs (reSubAll ['\n'] T)) = collapseWs (reSubAll ['\n'] T) :=
    removeAllF_id (by simp) _ _ hnl
  rw [hred, hrednext, hn_id, collapseWs_idem]

/-- C6 witness: the amended idempotence theorem applied to a concrete
trigger-free input. -/
theorem claim_C6_witness :
    cleanSafe ('a' :: 'b' :: '\n' :: ' ' :: 'c' :: []) = true ∧
      clean_up_text (clean_up_text ('a' :: 'b' :: '\n' :: ' ' :: 'c' :: [])) =
        clean_up_text ('a' :: 'b' :: '\n' :: ' ' :: 'c' :: []) :=
  ⟨by decide, claim_C6 ('a' :: 'b' :: '\n' :: ' ' :: 'c' :: []) (by decide)⟩

/-! ### Helper lemmas about the chunker -/

theorem chunkAuxF_succ (text : List Char) (cs ov : Int) (f : Nat) (start : Int) :
    chunkAuxF text cs ov (f + 1) start =
      if start < (text.length : Int) then
        (chunkAuxF text cs ov f (start + cs - ov)).map
          (fun r => pySlice text start (start + cs) :: r)
      else some [] := rfl

theorem pySlice_nat (text : List Char) (s c : Nat) :
    pySlice text (s : Int) ((s : Int) + (c : Int)) = (text.drop s).take c := by
  unfold pySlice pyIndex
  have h1 : ¬((s : Int) < 0) := by omega
  have h2 : ¬((s : Int) + (c : Int) < 0) := by omega
  rw [if_neg h1, if_neg h2]
  have h3 : (s : Int).toNat = s := Int.toNat_natCast s
  have h4 : ((s : Int) + (c : Int)).toNat = s + c := by omega
  rw [h3, h4]
  by_cases hs : s ≤ text.length
  · rw [min_eq_left hs]
    by_cases hc : s + c ≤ text.length
    · rw [min_eq_left hc]
      congr 1
      omega
    · push_neg at hc
      rw [min_eq_right (by omega : text.length ≤ s + c)]
      rw [List.take_of_length_le (by rw [List.length_drop]),
        List.take_of_length_le (by rw [List.length_drop]; omega)]
  · push_neg at hs
    rw [min_eq_right (le_of_lt hs), min_eq_right (by omega : text.length ≤ s + c)]
    rw [List.drop_length, List.drop_eq_nil_of_le (le_of_lt hs)]
    simp

theorem chunkAuxF_mono (text : List Char) (cs ov : Int) :
    ∀ (f f' : Nat) (s : Int) (r : List (List Char)),
      chunkAuxF text cs ov f s = some r → f ≤ f' → chunkAuxF text cs ov f' s = some r := by
  intro f
  induction f with
  | zero => intro f' s r h _; simp [chunkAuxF] at h
  | succ f ih =>
    intro f' s r h hle
    cases f' with
    | zero => omega
    | succ f'' =>
      simp only [chunkAuxF] at h ⊢
      by_cases hc : s < (text.length : Int)
      · rw [if_pos hc] at h ⊢
        cases hrec : chunkAuxF text cs ov f (s + cs - ov) with
        | none => rw [hrec] at h; simp at h
        | some r' =>
          rw [hrec] at h
          rw [ih f'' _ r' hrec (by omega)]
          exact h
      · rw [if_neg hc] at h ⊢
        exact h

theorem chunkAuxF_none_of_nonpos (text : List Char) (cs ov : Int) (h : cs - ov ≤ 0) :
    ∀ (f : Nat) (s : Int), s < (text.length : Int) → chunkAuxF text cs ov f s = none := by
  intro f
  induction f with
  | zero => intro s _; rfl
  | succ f ih =>
    intro s hs
    simp only [chunkAuxF, if_pos hs]
    rw [ih (s + cs - ov) (by omega)]
    rfl

theorem chunkAuxF_some_of_pos (text : List Char) (cs ov : Int) (h : 0 < cs - ov) :
    ∀ (fe : Nat) (s : Int), (text.length : Int) - s ≤ fe →
      ∃ r, chunkAuxF text cs ov (fe + 1) s = some r := by
  intro fe
  induction fe with
  | zero =>
    intro s hs
    have hns : ¬s < (text.length : Int) := by omega
    exact ⟨[], by rw [chunkAuxF_succ, if_neg hns]⟩
  | succ fe ih =>
    intro s hs
    by_cases hc : s < (text.length : Int)
    · obtain ⟨r', hr'⟩ := ih (s + cs - ov) (by omega)
      exact ⟨pySlice text s (s + cs) :: r', by rw [chunkAuxF_succ, if_pos hc, hr']; rfl⟩
    · exact ⟨[], by rw [chunkAuxF_succ, if_neg hc]⟩

theorem chunk_eq_specF (text : List Char) (cs ov : Nat) (hov : ov < cs) :
    ∀ (f : Nat) (s : Nat), text.length - s < f →
      chunkAuxF text (cs : Int) (ov : Int) f (s : Int) = some (specWindowsF text cs ov f s) := by
  intro f
  induction f with
  | zero => intro s hs; omega
  | succ f ih =>
    intro s hs
    by_cases h : s < text.length
    · have hc : (s : Int) < (text.length : Int) := by exact_mod_cast h
      have hcast : (s : Int) + (cs : Int) - (ov : Int) = ((s + (cs - ov) : Nat) : Int) := by
        omega
      simp only [chunkAuxF, specWindowsF, if_pos hc, if_pos h, hcast,
        ih (s + (cs - ov)) (by omega)]
      rw [pySlice_nat text s cs]
      rfl
    · have hc : ¬(s : Int) < (text.length : Int) := by exact_mod_cast h
      simp [chunkAuxF, specWindowsF, if_neg hc, if_neg h]

theorem chunk_text_eq_spec (text : List Char) (cs ov : Nat) (hov : ov < cs) :
    chunk_text text (cs : Int) (ov : Int) = some (specWindows text cs ov) := by
  have h := chunk_eq_specF text cs ov hov (text.length + 1) 0 (by omega)
  simpa [chunk_text, specWindows] using h

theorem specWindowsF_empty (text : List Char) (cs ov : Nat) (f s : Nat)
    (h : ¬s < text.length) : specWindowsF text cs ov f s = [] := by
  cases f with
  | zero => rfl
  | succ f => simp [specWindowsF, if_neg h]

theorem getLast?_drop (l : List Char) (s : Nat) (h : s < l.length) :
    (l.drop s).getLast? = l.getLast? := by
  rw [List.getLast?_eq_getElem?, List.getLast?_eq_getElem?, List.getElem?_drop]
  have heq : s + ((l.drop s).length - 1) = l.length - 1 := by
    rw [List.length_drop]; omega
  rw [heq]

theorem specWindowsF_lastChar (text : List Char) (cs ov : Nat) (hov : ov < cs) :
    ∀ (f s : Nat), s < text.length → text.length - s < f →
      lastCharOfChunks (specWindowsF text cs ov f s) = text.getLast? := by
  intro f
  induction f with
  | zero => intro s h1 h2; omega
  | succ f ih =>
    intro s h1 h2
    simp only [specWindowsF, if_pos h1]
    by_cases hnext : s + (cs - ov) < text.length
    · have hf : text.length - (s + (cs - ov)) < f := by omega
      have htail := ih (s + (cs - ov)) hnext hf
      obtain ⟨t0, ts, hts⟩ :
          ∃ t0 ts, specWindowsF text cs ov f (s + (cs - ov)) = t0 :: ts := by
        cases hsw : specWindowsF text cs ov f (s + (cs - ov)) with
        | nil =>
          exfalso
          cases f with
          | zero => omega
          | succ f' => simp [specWindowsF, if_pos hnext] at hsw
        | cons a b => exact ⟨a, b, rfl⟩
      rw [hts]
      rw [hts] at htail
      simpa only [lastCharOfChunks, List.getLast?_cons_cons] using htail
    · rw [specWindowsF_empty text cs ov f _ hnext]
      have hcov : text.length ≤ s + cs := by omega
      have hw : (text.drop s).take cs = text.drop s :=
        List.take_of_length_le (by rw [List.length_drop]; omega)
      simp only [lastCharOfChunks, List.getLast?_singleton, hw, Option.some_bind]
      exact getLast?_drop text s h1

theorem specWindowsF_sum (text : List Char) (cs ov : Nat) (hov : ov < cs) :
    ∀ (f s : Nat), text.length - s < f →
      text.length - s ≤ sumLens (specWindowsF text cs ov f s) := by
  intro f
  induction f with
  | zero => intro s h; omega
  | succ f ih =>
    intro s h
    by_cases h1 : s < text.length
    · have hih := ih (s + (cs - ov)) (by omega)
      simp only [specWindowsF, if_pos h1, sumLens, List.map_cons, List.sum_cons]
      simp only [sumLens] at hih
      have hlen : ((text.drop s).take cs).length = min cs (text.length - s) := by
        rw [List.length_take, List.length_drop]
      rw [hlen]
      omega
    · rw [specWindowsF_empty text cs ov _ _ h1]
      simp only [sumLens, List.map_nil, List.sum_nil]
      omega

theorem specWindowsF_chain (text : List Char) (cs ov : Nat) (hov : ov < cs) :
    ∀ (f s : Nat),
      List.Chain' (fun a b => a.length = cs → a.drop (a.length - ov) = b.take ov)
        (specWindowsF text cs ov f s) := by
  intro f
  induction f with
  | zero => intro s; exact List.chain'_nil
  | succ f ih =>
    intro s
    by_cases h1 : s < text.length
    · simp only [specWindowsF, if_pos h1]
      rw [List.chain'_cons']
      refine ⟨?_, ih (s + (cs - ov))⟩
      intro b hb
      have hbval : b = (text.drop (s + (cs - ov))).take cs := by
        cases f with
        | zero => simp [specWindowsF] at hb
        | succ f' =>
          by_cases h2 : s + (cs - ov) < text.length
          · simp only [specWindowsF, if_pos h2, List.head?_cons, Option.mem_def,
              Option.some.injEq] at hb
            exact hb.symm
          · simp [specWindowsF, if_neg h2] at hb
      intro hlen
      rw [hbval, hlen]
      have e1 : cs - (cs - ov) = ov := by omega
      rw [List.drop_take, List.drop_drop, e1, List.take_take,
        min_eq_left (le_of_lt hov)]
    · rw [specWindowsF_empty text cs ov _ _ h1]
      exact List.chain'_nil

theorem specWindowsF_items (text : List Char) (cs ov : Nat) (hov : ov < cs) :
    ∀ (f s : Nat) (c : List Char), c ∈ specWindowsF text cs ov f s →
      c ≠ [] ∧ c.length ≤ cs := by
  intro f
  induction f with
  | zero => intro s c hc; simp [specWindowsF] at hc
  | succ f ih =>
    intro s c hc
    by_cases h1 : s < text.length
    · simp only [specWindowsF, if_pos h1] at hc
      rcases List.mem_cons.mp hc with h | h
      · constructor
        · rw [h]
          intro habs
          rcases List.take_eq_nil_iff.mp habs with h0 | h0
          · omega
          · have hlen := congrArg List.length h0
            rw [List.length_drop] at hlen
            simp at hlen
            omega
        · rw [h, List.length_take, List.length_drop]
          exact min_le_left _ _
      · exact ih _ c h
    · rw [specWindowsF_empty text cs ov _ _ h1] at hc
      simp at hc

theorem specWindowsF_nonfinal (text : List Char) (cs ov : Nat) (hov : ov < cs) :
    ∀ (f s i : Nat), i + 1 < (specWindowsF text cs ov f s).length →
      cs - ov ≤ ((specWindowsF text cs ov f s).getD i []).length := by
  intro f
  induction f with
  | zero => intro s i hi; simp [specWindowsF] at hi
  | succ f ih =>
    intro s i hi
    by_cases h1 : s < text.length
    · simp only [specWindowsF, if_pos h1] at hi ⊢
      cases i with
      | zero =>
        simp only [List.length_cons] at hi
        have htne : specWindowsF text cs ov f (s + (cs - ov)) ≠ [] := by
          intro habs
          rw [habs] at hi
          simp at hi
        have hs' : s + (cs - ov) < text.length := by
          by_contra hcon
          exact htne (specWindowsF_empty text cs ov f _ hcon)
        simp only [List.getD_cons_zero]
        rw [List.length_take, List.length_drop]
        omega
      | succ i =>
        simp only [List.length_cons] at hi
        simp only [List.getD_cons_succ]
        exact ih _ i (by omega)
    · rw [specWindowsF_empty text cs ov _ _ h1] at hi
      simp at hi

theorem specWindowsF_flatten (text : List Char) (cs : Nat) (hcs : 0 < cs) :
    ∀ (f s : Nat), text.length - s < f →
      (specWindowsF text cs 0 f s).flatten = text.drop s := by
  intro f
  induction f with
  | zero => intro s h; omega
  | succ f ih =>
    intro s h
    by_cases h1 : s < text.length
    · simp only [specWindowsF, if_pos h1, List.flatten_cons]
      rw [ih (s + (cs - 0)) (by omega)]
      have hd : text.drop (s + (cs - 0)) = (text.drop s).drop cs := by
        rw [List.drop_drop]
        congr 1
      rw [hd]
      exact List.take_append_drop cs (text.drop s)
    · rw [specWindowsF_empty text cs 0 _ _ h1]
      rw [List.drop_eq_nil_of_le (by omega : text.length ≤ s)]
      rfl

/-! ### Claims C3, C4, C5, C7, C8, C9 -/

/-- C3: `chunk_text` produces exactly the spec's window sequence: window
`i` covers `[start_i, start_i + chunk_size)` with `start_0 = 0` and
`start_{i+1} = start_i + chunk_size - overlap`, stopping once
`start_i ≥ length text`, the final window truncated to the text's end
(stated for the advancing configurations `overlap < chunk_size`; the
worked example "abcdefghij"/4/1 is the witness). -/
theorem claim_C3 (text : List Char) (cs ov : Nat) (hov : ov < cs) :
    chunk_text text (cs : Int) (ov : Int) = some (specWindows text cs ov) :=
  chunk_text_eq_spec text cs ov hov

/-- C3 witness: the worked example fixing the exact semantics. -/
theorem claim_C3_witness :
    1 < 4 ∧ chunk_text "abcdefghij".data ((4 : Nat) : Int) ((1 : Nat) : Int) =
      some ["abcd".data, "defg".data, "ghij".data, "j".data] :=
  ⟨by decide, (claim_C3 "abcdefghij".data 4 1 (by decide)).trans (by decide)⟩

/-- C4: the overlap invariant as stated is false on the code: with text
"ab", chunk_size 4, overlap 3 the chunks are ["ab", "b"], and the last 3
characters of "ab" (namely "ab") differ from the first 3 characters of
"b" (namely "b"). -/
theorem claim_C4_counterexample :
    chunk_text ['a', 'b'] 4 3 = some [['a', 'b'], ['b']] ∧
      ¬(['a', 'b'] : List Char).drop ((['a', 'b'] : List Char).length - 3) =
        (['b'] : List Char).take 3 :=
  ⟨by decide, by decide⟩

/-- C4 (amended): for `overlap < chunk_size`, the last `overlap`
characters of chunk `i` equal the first `overlap` characters of chunk
`i+1` for every adjacent pair whose first chunk has full length
`chunk_size` (a truncated chunk that still has a successor — possible
only in the final window — need not satisfy the invariant). -/
theorem claim_C4 (text : List Char) (cs ov : Nat) (chunks : List (List Char))
    (hov : ov < cs) (h : chunk_text text (cs : Int) (ov : Int) = some chunks) :
    List.Chain' (fun a b => a.length = cs → a.drop (a.length - ov) = b.take ov) chunks := by
  rw [chunk_text_eq_spec text cs ov hov] at h
  obtain rfl : specWindows text cs ov = chunks := Option.some.inj h
  exact specWindowsF_chain text cs ov hov _ _

/-- C4 witness: the amended invariant at a concrete input. -/
theorem claim_C4_witness :
    1 < 3 ∧
      chunk_text ['a', 'b', 'c', 'd', 'e', 'f'] ((3 : Nat) : Int) ((1 : Nat) : Int) =
        some [['a', 'b', 'c'], ['c', 'd', 'e'], ['e', 'f']] ∧
      List.Chain' (fun a b => a.length = 3 → a.drop (a.length - 1) = b.take 1)
        [['a', 'b', 'c'], ['c', 'd', 'e'], ['e', 'f']] := by
  refine ⟨by decide, by decide, ?_⟩
  exact claim_C4 ['a', 'b', 'c', 'd', 'e', 'f'] 3 1 _ (by decide) (by decide)

/-- C5: the claim's fallback is false on the code: when the precondition
is violated (overlap = chunk_size = 1, text "a") the implementation
neither fails with an InvalidChunkConfig error nor guards against the
non-advancing start — the loop simply never terminates. -/
theorem claim_C5_counterexample : chunkDiverges ['a'] 1 1 :=
  fun f => chunkAuxF_none_of_nonpos ['a'] 1 1 (by decide) f 0 (by decide)

/-- C5 (amended): `overlap < chunk_size` is a precondition: under it the
window start strictly advances and `chunk_text` terminates for every
text; if it is violated on a non-empty text the loop never terminates —
the code contains no InvalidChunkConfig failure and no guard. -/
theorem claim_C5 (text : List Char) (cs ov : Int) :
    (0 < cs - ov → ∃ r, chunk_text text cs ov = some r) ∧
      (cs - ov ≤ 0 → text ≠ [] → chunkDiverges text cs ov) := by
  constructor
  · intro hadv
    exact chunkAuxF_some_of_pos text cs ov hadv text.length 0 (by omega)
  · intro hadv hne f
    apply chunkAuxF_none_of_nonpos text cs ov hadv f 0
    have hpos : 0 < text.length := List.length_pos.mpr hne
    exact_mod_cast hpos

/-- C5 witness: the divergence half applied at chunk_size = overlap = 1,
text "a", fuel 7. -/
theorem claim_C5_witness : chunkAuxF ['a'] 1 1 7 0 = none :=
  (claim_C5 ['a'] 1 1).2 (by decide) (by decide) 7

/-- C7: as stated ("every chunk_size and overlap") the claim is false:
the code's integer arithmetic admits a negative overlap, and with
overlap −1 on "abcd"/chunk_size 2 the loop terminates with chunks
["ab", "d"] whose lengths sum to 3 < 4 (a dropped character). -/
theorem claim_C7_counterexample :
    chunk_text ['a', 'b', 'c', 'd'] 2 (-1) = some [['a', 'b'], ['d']] ∧
      sumLens [['a', 'b'], ['d']] < 4 :=
  ⟨by decide, by decide⟩

/-- C7 (amended): for every overlap ≥ 0 and every chunk_size, whenever
the chunking loop terminates (`some` under any fuel), the last character
of the final chunk equals the last character of the text and the chunk
lengths sum to at least the text's length. -/
theorem claim_C7 (text : List Char) (cs ov : Int) (f : Nat) (r : List (List Char))
    (hov : 0 ≤ ov) (h : chunkAuxF text cs ov f 0 = some r) :
    lastCharOfChunks r = text.getLast? ∧ text.length ≤ sumLens r := by
  by_cases hT : text.length = 0
  · cases f with
    | zero => simp [chunkAuxF] at h
    | succ f =>
      have hns : ¬(0 : Int) < (text.length : Int) := by
        rw [hT]; omega
      simp only [chunkAuxF, if_neg hns] at h
      obtain rfl : ([] : List (List Char)) = r := Option.some.inj h
      have hnil : text = [] := List.eq_nil_of_length_eq_zero hT
      constructor
      · rw [hnil]; rfl
      · rw [hT]; omega
  · have hlen : 0 < text.length := Nat.pos_of_ne_zero hT
    have hadv : 0 < cs - ov := by
      by_contra hcon
      push_neg at hcon
      have hnone := chunkAuxF_none_of_nonpos text cs ov hcon f 0 (by exact_mod_cast hlen)
      rw [hnone] at h
      exact Option.noConfusion h
    have hcs : ((cs.toNat : Nat) : Int) = cs := Int.toNat_of_nonneg (by omega)
    have hov' : ((ov.toNat : Nat) : Int) = ov := Int.toNat_of_nonneg hov
    have hno : ov.toNat < cs.toNat := by omega
    have hbig := chunkAuxF_mono text cs ov f (max f (text.length + 1)) 0 r h (le_max_left _ _)
    have hspec := chunk_eq_specF text cs.toNat ov.toNat hno (max f (text.length + 1)) 0
      (by omega)
    rw [hcs, hov', Nat.cast_zero, hbig] at hspec
    obtain rfl : r = specWindowsF text cs.toNat ov.toNat (max f (text.length + 1)) 0 :=
      Option.some.inj hspec
    constructor
    · exact specWindowsF_lastChar text cs.toNat ov.toNat hno _ 0 hlen (by omega)
    · have hsum := specWindowsF_sum text cs.toNat ov.toNat hno (max f (text.length + 1)) 0
        (by omega)
      simpa using hsum

/-- C7 witness: the amended theorem at "abc"/2/1. -/
theorem claim_C7_witness :
    (0 : Int) ≤ 1 ∧ chunkAuxF ['a', 'b', 'c'] 2 1 4 0 = some [['a', 'b'], ['b', 'c'], ['c']] ∧
      (lastCharOfChunks [['a', 'b'], ['b', 'c'], ['c']] = (['a', 'b', 'c'] : List Char).getLast? ∧
        (['a', 'b', 'c'] : List Char).length ≤ sumLens [['a', 'b'], ['b', 'c'], ['c']]) :=
  ⟨by decide, by decide, claim_C7 ['a', 'b', 'c'] 2 1 4 _ (by decide) (by decide)⟩

/-- C8: with overlap 0 and chunk_size > 0, concatenating the chunks in
order reconstructs the text exactly. -/
theorem claim_C8 (text : List Char) (cs : Nat) (hcs : 0 < cs) :
    (chunk_text text (cs : Int) 0).map List.flatten = some text := by
  have h := chunk_text_eq_spec text cs 0 hcs
  rw [Nat.cast_zero] at h
  rw [h, Option.map_some', specWindows,
    specWindowsF_flatten text cs hcs (text.length + 1) 0 (by omega), List.drop_zero]

/-- C8 witness: the round trip at "abcde"/2/0. -/
theorem claim_C8_witness :
    0 < 2 ∧ (chunk_text ['a', 'b', 'c', 'd', 'e'] ((2 : Nat) : Int) 0).map List.flatten =
      some ['a', 'b', 'c', 'd', 'e'] :=
  ⟨by decide, claim_C8 ['a', 'b', 'c', 'd', 'e'] 2 (by decide)⟩

/-- C9: the parenthetical "every chunk except possibly the last has
length exactly chunk_size" is false on the code: chunk_text "ab" 4 3 =
["ab", "b"], whose first chunk is not last yet has length 2 ≠ 4. -/
theorem claim_C9_counterexample :
    chunk_text ['a', 'b'] 4 3 = some [['a', 'b'], ['b']] ∧
      0 + 1 < ([['a', 'b'], ['b']] : List (List Char)).length ∧
      (([['a', 'b'], ['b']] : List (List Char)).getD 0 []).length ≠ 4 :=
  ⟨by decide, by decide, by decide⟩

/-- C9 (amended): chunk_text of the empty text is the empty sequence;
for `0 ≤ overlap < chunk_size` every emitted chunk is non-empty with
length at most chunk_size, and every chunk except possibly the last has
length at least `chunk_size − overlap`. -/
theorem claim_C9 (text : List Char) (cs ov : Nat) (chunks : List (List Char))
    (hov : ov < cs) (h : chunk_text text (cs : Int) (ov : Int) = some chunks) :
    (text = [] → chunks = []) ∧
      (∀ c ∈ chunks, c ≠ [] ∧ c.length ≤ cs) ∧
      (∀ i, i + 1 < chunks.length → cs - ov ≤ (chunks.getD i []).length) := by
  rw [chunk_text_eq_spec text cs ov hov] at h
  obtain rfl : specWindows text cs ov = chunks := Option.some.inj h
  refine ⟨?_, ?_, ?_⟩
  · intro hT
    exact specWindowsF_empty text cs ov _ _ (by rw [hT]; simp)
  · intro c hc
    exact specWindowsF_items text cs ov hov _ _ c hc
  · intro i hi
    exact specWindowsF_nonfinal text cs ov hov _ _ i hi

/-- C9 witness: the amended invariants at "abcde"/3/1. -/
theorem claim_C9_witness :
    1 < 3 ∧
      chunk_text ['a', 'b', 'c', 'd', 'e'] ((3 : Nat) : Int) ((1 : Nat) : Int) =
        some [['a', 'b', 'c'], ['c', 'd', 'e'], ['e']] ∧
      (((['a', 'b', 'c', 'd', 'e'] : List Char) = [] →
          ([['a', 'b', 'c'], ['c', 'd', 'e'], ['e']] : List (List Char)) = []) ∧
        (∀ c ∈ ([['a', 'b', 'c'], ['c', 'd', 'e'], ['e']] : List (List Char)),
          c ≠ [] ∧ c.length ≤ 3) ∧
        (∀ i, i + 1 < ([['a', 'b', 'c'], ['c', 'd', 'e'], ['e']] : List (List Char)).length →
          3 - 1 ≤ (([['a', 'b', 'c'], ['c', 'd', 'e'], ['e']] : List (List Char)).getD i []).length)) :=
  ⟨by decide, by decide,
    claim_C9 ['a', 'b', 'c', 'd', 'e'] 3 1 _ (by decide) (by decide)⟩

/-! ### Helper lemmas about the representation fetcher -/

theorem fetchGo_succ (source : Nat → List RepEntry) (fid fname : String)
    (mr k count : Nat) :
    fetchGo source fid fname mr (k + 1) count =
      match source (mr - (k + 1)) with
      | [] =>
        if mr - (k + 1) = mr - 1 then (.unavailable fname mr, count + 1)
        else fetchGo source fid fname mr k (count + 1)
      | rep :: _ =>
        if rep.representation = "extracted_text" then
          (.success (clean_up_text rep.text), count + 1)
        else (.notReadyError fid, count + 1) := rfl

theorem fetchGo_exhaust (source : Nat → List RepEntry) (fid fname : String) (mr : Nat)
    (hsrc : ∀ a, a < mr → source a = []) :
    ∀ (k count : Nat), 1 ≤ k → k ≤ mr →
      fetchGo source fid fname mr k count = (.unavailable fname mr, count + k) := by
  intro k
  induction k with
  | zero => intro count h _; omega
  | succ k ih =>
    intro count _ hk
    cases k with
    | zero =>
      have hs : source (mr - (0 + 1)) = [] := hsrc _ (by omega)
      have hc : mr - (0 + 1) = mr - 1 := by omega
      simp [fetchGo_succ, hs, hc]
    | succ k' =>
      have hs : source (mr - (k' + 1 + 1)) = [] := hsrc _ (by omega)
      have hc : ¬(mr - (k' + 1 + 1) = mr - 1) := by omega
      rw [fetchGo_succ, hs]
      dsimp only
      rw [if_neg hc, ih (count + 1) (by omega) (by omega)]
      congr 1
      omega

theorem fetchGo_success (source : Nat → List RepEntry) (fid fname : String) (mr : Nat)
    (rep : RepEntry) (rest : List RepEntry)
    (hsrc : ∀ a, a + 1 < mr → source a = [])
    (hlast : source (mr - 1) = rep :: rest)
    (hkind : rep.representation = "extracted_text") :
    ∀ (k count : Nat), 1 ≤ k → k ≤ mr →
      fetchGo source fid fname mr k count = (.success (clean_up_text rep.text), count + k) := by
  intro k
  induction k with
  | zero => intro count h _; omega
  | succ k ih =>
    intro count _ hk
    cases k with
    | zero =>
      have hc : mr - (0 + 1) = mr - 1 := by omega
      rw [fetchGo_succ, hc, hlast]
      dsimp only
      rw [if_pos hkind]
    | succ k' =>
      have hs : source (mr - (k' + 1 + 1)) = [] := hsrc _ (by omega)
      have hc : ¬(mr - (k' + 1 + 1) = mr - 1) := by omega
      rw [fetchGo_succ, hs]
      dsimp only
      rw [if_neg hc, ih (count + 1) (by omega) (by omega)]
      congr 1
      omega

/-! ### Claims C1, C2, C10 -/

/-- C1: the claim is false on the code.  A representation entry that is
present but whose readiness state is "pending" does NOT count as a
failure: the code never reads the readiness state, downloads the
extracted-text representation immediately, and succeeds on the very first
attempt instead of retrying to exhaustion. -/
theorem claim_C1_counterexample :
    get_file_text_content srcPending "f1" "n1" 5 5 = .success ['x'] ∧
      fetchCount srcPending "f1" "n1" 5 = 1 :=
  ⟨by decide, by decide⟩

/-- C1 (amended): only an attempt observing an EMPTY representation list
counts as a failure and retries (a present entry is never checked for
readiness: an extracted-text entry is downloaded at once, any other kind
raises immediately).  A source that is empty on the first
max_retries − 1 attempts and offers an extracted-text representation on
attempt max_retries yields the downloaded cleaned text, and a source
that is empty on every attempt fails with the retries-exhausted error
carrying the document name and max_retries, after exactly max_retries
metadata lookups (max_retries ≥ 1). -/
theorem claim_C1 (source : Nat → List RepEntry) (fid fname : String) (mr d : Nat)
    (hmr : 1 ≤ mr) :
    ((∀ a, a < mr → source a = []) →
        get_file_text_content source fid fname mr d = .unavailable fname mr ∧
          fetchCount source fid fname mr = mr) ∧
      (∀ rep rest, (∀ a, a + 1 < mr → source a = []) → source (mr - 1) = rep :: rest →
        rep.representation = "extracted_text" →
          get_file_text_content source fid fname mr d = .success (clean_up_text rep.text) ∧
            fetchCount source fid fname mr = mr) := by
  constructor
  · intro hsrc
    have h := fetchGo_exhaust source fid fname mr hsrc mr 0 hmr le_rfl
    constructor
    · show (fetchGo source fid fname mr mr 0).1 = _
      rw [h]
    · show (fetchGo source fid fname mr mr 0).2 = mr
      rw [h]
      exact Nat.zero_add mr
  · intro rep rest hsrc hlast hkind
    have h := fetchGo_success source fid fname mr rep rest hsrc hlast hkind mr 0 hmr le_rfl
    constructor
    · show (fetchGo source fid fname mr mr 0).1 = _
      rw [h]
    · show (fetchGo source fid fname mr mr 0).2 = mr
      rw [h]
      exact Nat.zero_add mr

/-- C1 witness: the amended theorem at max_retries = 5 with the
always-empty source and with the empty-then-ready source. -/
theorem claim_C1_witness :
    1 ≤ 5 ∧
      (get_file_text_content srcEmpty "f1" "n1" 5 5 = .unavailable "n1" 5 ∧
        fetchCount srcEmpty "f1" "n1" 5 = 5) ∧
      (get_file_text_content srcLate "f2" "n2" 5 5 = .success (clean_up_text ['h', 'i']) ∧
        fetchCount srcLate "f2" "n2" 5 = 5) := by
  refine ⟨by decide, ?_, ?_⟩
  · exact (claim_C1 srcEmpty "f1" "n1" 5 5 (by decide)).1 (fun a _ => rfl)
  · exact (claim_C1 srcLate "f2" "n2" 5 5 (by decide)).2
      ⟨"extracted_text", "success", ['h', 'i']⟩ []
      (fun a ha => by simp only [srcLate]; rw [if_pos (by omega : a < 4)])
      (by decide) rfl

/-- C2: per-document failure isolation: the pipeline's records are
exactly the concatenation of each document's own records (empty when its
fetch fails), its log holds exactly one entry per failed document, in
order; and on the concrete 3-document run where document 2's fetch always
fails it yields the chunk records of documents 1 and 3 only and logs
exactly one failure for document 2. -/
theorem claim_C2 :
    (∀ files : List BoxFile,
        (extract_text_and_generate_embeddings files).1 =
          (files.map perDocRecords).flatten ∧
        (extract_text_and_generate_embeddings files).2 =
          ((files.filter fun f => !isSuccess (fetchOf f)).map fun f => ⟨f.name, fetchOf f⟩)) ∧
      extract_text_and_generate_embeddings [fileA, fileB, fileC] =
        ([⟨"1", "doc1", 0, ['h', 'i'], "c1"⟩, ⟨"3", "doc3", 0, ['y', 'o'], "c3"⟩],
          [⟨"doc2", .unavailable "doc2" 5⟩]) := by
  constructor
  · intro files
    induction files with
    | nil => exact ⟨rfl, rfl⟩
    | cons f rest ih =>
      cases hf : fetchOf f with
      | success t =>
        constructor
        · simp only [extract_text_and_generate_embeddings, hf, List.map_cons,
            List.flatten_cons, perDocRecords, ih.1]
        · simp only [extract_text_and_generate_embeddings, hf, List.filter_cons,
            isSuccess, Bool.not_true, ih.2]
          simp
      | notReadyError fid0 =>
        constructor
        · simp only [extract_text_and_generate_embeddings, hf, List.map_cons,
            List.flatten_cons, perDocRecords, ih.1]
          simp
        · simp only [extract_text_and_generate_embeddings, hf, List.filter_cons,
            isSuccess, Bool.not_false, ih.2]
          simp [hf]
      | unavailable n0 a0 =>
        constructor
        · simp only [extract_text_and_generate_embeddings, hf, List.map_cons,
            List.flatten_cons, perDocRecords, ih.1]
          simp
        · simp only [extract_text_and_generate_embeddings, hf, List.filter_cons,
            isSuccess, Bool.not_false, ih.2]
          simp [hf]
      | returnedNone =>
        constructor
        · simp only [extract_text_and_generate_embeddings, hf, List.map_cons,
            List.flatten_cons, perDocRecords, ih.1]
          simp
        · simp only [extract_text_and_generate_embeddings, hf, List.filter_cons,
            isSuccess, Bool.not_false, ih.2]
          simp [hf]
  · decide

/-- C10: the result of `get_file_text_content` is independent of its
`delay` argument: the body contains no sleep and never reads `delay`, so
for the same source behaviour and max_retries any two delays produce the
identical outcome. -/
theorem claim_C10 (source : Nat → List RepEntry) (fid fname : String) (mr d d' : Nat) :
    get_file_text_content source fid fname mr d =
      get_file_text_content source fid fname mr d' := rfl

end WeaviateBox
